import Mathlib

/-!
Formal model of the VisDoMRAG retrieval-and-fusion pipeline (src/visdomrag.py),
shallowly embedded in Lean.  Pure string manipulation is translated directly;
filesystem access, PDF parsing, embedding models and the generation backend are
abstracted as explicit function parameters, and Python exceptions in a unit of
work are modelled by `Option` results.
-/

namespace VisDoM

/-! ### Python string primitives -/

/-- Characters treated as whitespace by Python `str.strip()` (ASCII subset). -/
def isPySpace (c : Char) : Bool :=
  c = ' ' || c = '\t' || c = '\n' || c = '\r' || c = '\x0B' || c = '\x0C'

/-- Drop characters satisfying `p` from both ends of a character list. -/
def stripWhile (p : Char → Bool) (s : List Char) : List Char :=
  ((s.dropWhile p).reverse.dropWhile p).reverse

/-- Python `str.strip()` on a character list. -/
def pyStrip (s : List Char) : List Char := stripWhile isPySpace s

/-- Python `s.ljust(n, c)`: pad on the right with `c` up to length `n`. -/
def ljust (s : List Char) (n : Nat) (c : Char) : List Char :=
  s ++ List.replicate (n - s.length) c

/-- Python `s.split(sep)[0]` for a single-character separator: the prefix of
`s` before the first occurrence of `sep` (the whole string if absent). -/
def beforeFirst (sep : Char) (s : List Char) : List Char :=
  s.takeWhile (fun c => c ≠ sep)

/-- Split `s` at the first occurrence of the pattern `pat`: returns
`some (before, after)` where `s = before ++ pat ++ after` and `before` is
shortest, or `none` when `pat` does not occur in `s`. -/
def splitOnFirst (pat : List Char) : List Char → Option (List Char × List Char)
  | [] => if pat.isPrefixOf ([] : List Char) then some ([], []) else none
  | c :: cs =>
    if pat.isPrefixOf (c :: cs) then some ([], (c :: cs).drop pat.length)
    else
      match splitOnFirst pat cs with
      | some (a, b) => some (c :: a, b)
      | none => none

/-- Python `s.split(pat)[0]` for a multi-character pattern. -/
def beforeFirstSub (pat s : List Char) : List Char :=
  match splitOnFirst pat s with
  | some (a, _) => a
  | none => s

/-- Prefix of `s` before the last occurrence of `sep`, when `sep` occurs. -/
def beforeLastSep (sep : Char) : List Char → Option (List Char)
  | [] => none
  | c :: cs =>
    match beforeLastSep sep cs with
    | some p => some (c :: p)
    | none => if c = sep then some [] else none

/-- Python `s.rsplit(sep, 1)[0]`: prefix before the last occurrence of `sep`,
or the whole string when `sep` is absent. -/
def rsplitBase (sep : Char) (s : List Char) : List Char :=
  (beforeLastSep sep s).getD s

/-- Suffix of `s` after the last occurrence of `sep`, when `sep` occurs. -/
def afterLastSep (sep : Char) : List Char → Option (List Char)
  | [] => none
  | c :: cs =>
    match afterLastSep sep cs with
    | some t => some t
    | none => if c = sep then some cs else none

/-- Model of `os.path.join` for two POSIX path components. -/
def pathJoin (a b : List Char) : List Char :=
  if b.head? = some '/' then b
  else if a = [] then b
  else if a.getLast? = some '/' then a ++ b
  else a ++ '/' :: b

/-! ### C1 — Retrieval store rebuild policy

`retrieve_visual_contexts` (src lines 662-667) rebuilds the visual index
exactly when the persisted table is absent or `force_reindex` is set.
`retrieve_textual_contexts` (src lines 735-741) performs the same conditional
build and then calls `self.build_text_index()` once more, unconditionally.
The functions below count the index builds a single read triggers (assuming
triggered builds succeed). -/

/-- Number of visual index builds triggered by one visual retrieval read. -/
def visual_builds_on_read (tableExists force : Bool) : Nat :=
  if !tableExists || force then 1 else 0

/-- Number of textual index builds triggered by one textual retrieval read:
the conditional build of src line 736-738 plus the unconditional
`self.build_text_index()` of src line 741. -/
def textual_builds_on_read (tableExists force : Bool) : Nat :=
  (if !tableExists || force then 1 else 0) + 1

/-- C1: with the textual retrieval table present and `force_reindex = false`,
a textual read still triggers one full index rebuild (regenerating the
persisted table), while a visual read under the same conditions triggers
none — the build-on-demand policy holds for the visual modality only. -/
theorem textual_read_rebuilds_despite_cache :
    textual_builds_on_read true false = 1 ∧ visual_builds_on_read true false = 0 := by
  constructor <;> rfl

/-! ### C2 — Per-query orchestrator idempotence

Model of `process_query` (src lines 1079-1214) at the level of its control
flow and side effects.  Filesystem state and collaborator results are inputs;
the outcome records the retrieval calls, generation-backend calls and artifact
writes performed. -/

structure QueryEnv where
  /-- the query id occurs in the dataset (`self.df[...].iloc[0]` succeeds) -/
  rowExists : Bool
  /-- the combined artifact file already exists (src line 1107) -/
  combinedExists : Bool
  /-- the visual artifact file already exists (src line 1113) -/
  visualFileExists : Bool
  /-- the textual artifact file already exists (src line 1145) -/
  textualFileExists : Bool
  /-- `retrieve_visual_contexts` would return an empty list -/
  visualContextsEmpty : Bool
  /-- `retrieve_textual_contexts` would return an empty list -/
  textualContextsEmpty : Bool
deriving DecidableEq

structure ProcOutcome where
  success : Bool
  retrievalCalls : Nat
  genCalls : Nat
  filesWritten : List String
deriving DecidableEq

/-- Model of `process_query`: early return on an existing combined artifact,
then one phase per modality (retrieve, generate, write artifact — or load the
existing artifact), then fusion (one more generation call and the combined
write) when both modality responses are available. -/
def process_query (env : QueryEnv) : ProcOutcome :=
  if !env.rowExists then ⟨false, 0, 0, []⟩
  else if env.combinedExists then ⟨true, 0, 0, []⟩
  else
    let vPhase : Bool × Nat × Nat × List String :=
      if !env.visualFileExists then
        if env.visualContextsEmpty then (false, 1, 0, [])
        else (true, 1, 1, ["visual"])
      else (true, 0, 0, [])
    let tPhase : Bool × Nat × Nat × List String :=
      if !env.textualFileExists then
        if env.textualContextsEmpty then (false, 1, 0, [])
        else (true, 1, 1, ["textual"])
      else (true, 0, 0, [])
    let retr := vPhase.2.1 + tPhase.2.1
    let gens := vPhase.2.2.1 + tPhase.2.2.1
    let writes := vPhase.2.2.2 ++ tPhase.2.2.2
    if vPhase.1 && tPhase.1 then ⟨true, retr, gens + 1, writes ++ ["combined"]⟩
    else ⟨false, retr, gens, writes⟩

/-- C2: when the combined artifact for a dataset query already exists,
`process_query` reports success immediately and performs no retrieval, no
generation-backend call and no artifact write. -/
theorem process_query_completed_noop (env : QueryEnv)
    (hrow : env.rowExists = true) (hdone : env.combinedExists = true) :
    process_query env = ⟨true, 0, 0, []⟩ := by
  simp [process_query, hrow, hdone]

/-- Witness for `process_query_completed_noop` at a concrete environment. -/
theorem process_query_completed_noop_witness :
    process_query ⟨true, true, false, false, false, false⟩ = ⟨true, 0, 0, []⟩ :=
  process_query_completed_noop ⟨true, true, false, false, false, false⟩ rfl rfl

/-! ### C7 — PDF text extraction with OCR fallback

Model of `extract_text_from_pdf` (src lines 200-229).  `plain` is the result
of the PyPDF2 per-page extraction (`none` models an exception raised while
opening or reading the file); `ocr` holds the per-page OCR texts that the
fallback path would obtain (`none` models an exception in the OCR path).
Either exception is caught and yields an empty page list. -/

/-- OCR page formatting of src line 223. -/
def ocrPages (ts : List String) : List String :=
  ts.enum.map (fun it => "--- Page " ++ toString (it.1 + 1) ++ " ---\n" ++ it.2 ++ "\n")

/-- Model of `extract_text_from_pdf`. -/
def extract_text_from_pdf (plain ocr : Option (List String)) : List String :=
  match plain with
  | none => []
  | some pages =>
    if pages.any (fun p => (pyStrip p.data).isEmpty) then (ocr.map ocrPages).getD []
    else pages

/-- C7: if every plainly-extracted page strips to non-empty text the plain
result is returned unchanged; if any page strips to empty, the whole document
is re-extracted via OCR (formatted as in the source); an exception in either
path yields an empty page list rather than an error. -/
theorem extract_text_from_pdf_spec (plain ocr : Option (List String)) :
    (∀ pages, plain = some pages → (∀ p ∈ pages, ¬ (pyStrip p.data).isEmpty) →
      extract_text_from_pdf plain ocr = pages) ∧
    (∀ pages ts, plain = some pages → ocr = some ts →
      (∃ p ∈ pages, (pyStrip p.data).isEmpty) →
      extract_text_from_pdf plain ocr = ocrPages ts) ∧
    (∀ pages, plain = some pages → ocr = none →
      (∃ p ∈ pages, (pyStrip p.data).isEmpty) →
      extract_text_from_pdf plain ocr = []) ∧
    (plain = none → extract_text_from_pdf plain ocr = []) := by
  refine ⟨?_, ?_, ?_, ?_⟩
  · intro pages hp hne
    subst hp
    have hany : pages.any (fun p => (pyStrip p.data).isEmpty) = false := by
      simp only [List.any_eq_false]
      intro p hmem
      simpa using hne p hmem
    simp [extract_text_from_pdf, hany]
  · intro pages ts hp ho hex
    subst hp; subst ho
    have hany : pages.any (fun p => (pyStrip p.data).isEmpty) = true := by
      simp only [List.any_eq_true]
      obtain ⟨p, hmem, hemp⟩ := hex
      exact ⟨p, hmem, by simpa using hemp⟩
    simp [extract_text_from_pdf, hany, ocrPages]
  · intro pages hp ho hex
    subst hp; subst ho
    have hany : pages.any (fun p => (pyStrip p.data).isEmpty) = true := by
      simp only [List.any_eq_true]
      obtain ⟨p, hmem, hemp⟩ := hex
      exact ⟨p, hmem, by simpa using hemp⟩
    simp [extract_text_from_pdf, hany]
  · intro hp; subst hp; rfl

/-- Witness for `extract_text_from_pdf_spec` at concrete inputs: a document
whose second page is whitespace-only falls back to the formatted OCR pages. -/
theorem extract_text_from_pdf_spec_witness :
    extract_text_from_pdf (some ["hello", "  "]) (some ["ocr1", "ocr2"]) =
      ocrPages ["ocr1", "ocr2"] :=
  (extract_text_from_pdf_spec (some ["hello", "  "]) (some ["ocr1", "ocr2"])).2.1
    ["hello", "  "] ["ocr1", "ocr2"] rfl rfl ⟨"  ", by decide⟩

/-! ### C8 — Document caching filename heuristics

Model of the PDF-location loop of `cache_documents` (src lines 277-291).
`fsExists` abstracts `os.path.exists` and `extract` abstracts
`extract_text_from_pdf` applied at a path. -/

/-- The ordered candidate paths tried for a document id (src lines 279-284):
the exact id, the id with a `.pdf` extension, the id right-padded with `'0'`
to length 10 with a `.pdf` extension, and the id prefix before the first
underscore with a `.pdf` extension. -/
def possible_paths (pdf_dir doc_id : List Char) : List (List Char) :=
  [pathJoin pdf_dir doc_id,
   pathJoin pdf_dir (doc_id ++ ".pdf".data),
   pathJoin pdf_dir (ljust doc_id 10 '0' ++ ".pdf".data),
   pathJoin pdf_dir (beforeFirst '_' doc_id ++ ".pdf".data)]

/-- Model of the `cache_documents` caching loop: for each document id, the
first existing candidate path is extracted into the cache; ids with no
existing candidate are skipped and processing continues. -/
def cache_documents (fsExists : List Char → Bool)
    (extract : List Char → List (List Char))
    (pdf_dir : List Char) (doc_ids : List (List Char)) :
    List (List Char × List (List Char)) :=
  doc_ids.filterMap (fun doc_id =>
    match (possible_paths pdf_dir doc_id).find? fsExists with
    | some p => some (doc_id, extract p)
    | none => none)

/-- C8: the four candidate paths are tried in the stated order and the first
existing one is used; a document with no existing candidate gets no cache
entry; in both cases the remaining documents are still processed (caching of
a list splits around any one document, so no hard failure occurs). -/
theorem cache_documents_path_heuristics (fsExists : List Char → Bool)
    (extract : List Char → List (List Char))
    (pdf_dir doc_id : List Char) (ids1 ids2 : List (List Char)) :
    possible_paths pdf_dir doc_id =
      [pathJoin pdf_dir doc_id,
       pathJoin pdf_dir (doc_id ++ ".pdf".data),
       pathJoin pdf_dir (ljust doc_id 10 '0' ++ ".pdf".data),
       pathJoin pdf_dir (beforeFirst '_' doc_id ++ ".pdf".data)] ∧
    (∀ p, (possible_paths pdf_dir doc_id).find? fsExists = some p →
      cache_documents fsExists extract pdf_dir (ids1 ++ doc_id :: ids2) =
        cache_documents fsExists extract pdf_dir ids1 ++
          (doc_id, extract p) :: cache_documents fsExists extract pdf_dir ids2) ∧
    ((possible_paths pdf_dir doc_id).find? fsExists = none →
      cache_documents fsExists extract pdf_dir (ids1 ++ doc_id :: ids2) =
        cache_documents fsExists extract pdf_dir ids1 ++
          cache_documents fsExists extract pdf_dir ids2) := by
  refine ⟨rfl, ?_, ?_⟩
  · intro p hp
    simp [cache_documents, List.filterMap_append, hp]
  · intro hp
    simp [cache_documents, List.filterMap_append, hp]

/-- Witness for `cache_documents_path_heuristics`: with only `docs/a.pdf` on
the filesystem, document id `a` is cached from its second candidate path. -/
theorem cache_documents_path_heuristics_witness :
    cache_documents (fun p => p = "docs/a.pdf".data) (fun _ => []) "docs".data
        ([] ++ "a".data :: []) =
      cache_documents (fun p => p = "docs/a.pdf".data) (fun _ => []) "docs".data [] ++
        ("a".data, (fun (_ : List Char) => ([] : List (List Char))) "docs/a.pdf".data) ::
          cache_documents (fun p => p = "docs/a.pdf".data) (fun _ => []) "docs".data [] :=
  (cache_documents_path_heuristics (fun p => p = "docs/a.pdf".data) (fun _ => [])
    "docs".data "a".data [] []).2.1 "docs/a.pdf".data (by decide)

/-! ### Infrastructure: correctness of `splitOnFirst` -/

/-- When the pattern does not occur in `s`, `splitOnFirst` finds nothing. -/
theorem splitOnFirst_eq_none (pat : List Char) (hpat : pat ≠ []) :
    ∀ s : List Char, ¬ pat <:+: s → splitOnFirst pat s = none := by
  intro s
  induction s with
  | nil =>
    intro _
    match pat, hpat with
    | c :: cs, _ => rfl
  | cons c cs ih =>
    intro h
    have hp : pat.isPrefixOf (c :: cs) = false := by
      rw [Bool.eq_false_iff]
      intro hT
      exact h (List.isPrefixOf_iff_prefix.mp hT).isInfix
    rw [splitOnFirst, hp]
    simp only [Bool.false_eq_true, if_false]
    rw [ih (fun hinf => h (List.infix_cons hinf))]

/-- Taking at most the left factor's length from a concatenation only sees
the left factor. -/
theorem take_append_of_le {α : Type} (n : Nat) (u v : List α) (h : n ≤ u.length) :
    (u ++ v).take n = u.take n := by
  rw [List.take_append_eq_append_take, Nat.sub_eq_zero_of_le h, List.take_zero,
    List.append_nil]

/-- A shortest-first split around an explicit decomposition: if the pattern
has no occurrence starting strictly before `x.length`, then splitting
`x ++ pat ++ y` at the first occurrence yields `(x, y)`. -/
theorem splitOnFirst_append (pat : List Char) (hpat : pat ≠ []) :
    ∀ x y : List Char, ¬ pat <:+: (x ++ pat).dropLast →
      splitOnFirst pat (x ++ (pat ++ y)) = some (x, y) := by
  intro x
  induction x with
  | nil =>
    intro y _
    match pat, hpat with
    | c :: cs, _ =>
      have hp : (c :: cs).isPrefixOf (c :: (cs ++ y)) = true := by
        refine List.isPrefixOf_iff_prefix.mpr ?_
        show (c :: cs) <+: ((c :: cs) ++ y)
        exact List.prefix_append _ _
      rw [List.nil_append]
      show splitOnFirst (c :: cs) (c :: (cs ++ y)) = some ([], y)
      rw [splitOnFirst, hp]
      simp only [if_true]
      have hdrop : (c :: (cs ++ y)).drop (c :: cs).length = y := by
        show ((c :: cs) ++ y).drop (c :: cs).length = y
        exact List.drop_left _ _
      rw [hdrop]
  | cons a x' ih =>
    intro y h
    have hxp : ((a :: x') ++ pat) ≠ [] := by simp
    have hp : pat.isPrefixOf (a :: (x' ++ (pat ++ y))) = false := by
      rw [Bool.eq_false_iff]
      intro hT
      apply h
      have hpre : pat <+: ((a :: x') ++ (pat ++ y)) := by
        have := List.isPrefixOf_iff_prefix.mp hT
        simpa using this
      have hlen : pat.length ≤ ((a :: x') ++ pat).length - 1 := by
        rw [List.length_append]
        simp only [List.length_cons]
        omega
      have htake : ((a :: x') ++ pat).dropLast =
          List.take (((a :: x') ++ pat).length - 1) ((a :: x') ++ (pat ++ y)) := by
        have h1 : (a :: x') ++ (pat ++ y) = ((a :: x') ++ pat) ++ y := by
          rw [List.append_assoc]
        rw [h1, take_append_of_le _ _ _ (by omega), List.dropLast_eq_take]
      rw [htake]
      exact (List.prefix_take_iff.mpr ⟨hpre, hlen⟩).isInfix
    rw [show (a :: x') ++ (pat ++ y) = a :: (x' ++ (pat ++ y)) from rfl]
    rw [splitOnFirst, hp]
    simp only [Bool.false_eq_true, if_false]
    have hih : splitOnFirst pat (x' ++ (pat ++ y)) = some (x', y) := by
      refine ih y (fun hinf => h ?_)
      have hne : (x' ++ pat) ≠ [] := by
        intro hnil
        exact hpat (List.append_eq_nil.mp hnil).2
      have hcons : ((a :: x') ++ pat).dropLast = a :: (x' ++ pat).dropLast := by
        show ([a] ++ (x' ++ pat)).dropLast = a :: (x' ++ pat).dropLast
        rw [List.dropLast_append_of_ne_nil _ hne]
        rfl
      rw [hcons]
      exact List.infix_cons hinf
    rw [hih]

/-- Occurrence inside a right factor lifts to the whole concatenation (with
the last character removed in both). -/
theorem not_infix_dropLast_of_append (pat p l : List Char) (hl : l ≠ [])
    (h : ¬ pat <:+: (p ++ l).dropLast) : ¬ pat <:+: l.dropLast := by
  intro hinf
  apply h
  rw [List.dropLast_append_of_ne_nil _ hl]
  exact hinf.trans (List.suffix_append p l.dropLast).isInfix

/-! ### C6 — Heading-delimited section extraction

Model of `extract_sections` (src lines 943-971).  The source matches, with
`re.DOTALL`, the pattern `## <heading>:(.*?)(?=## <next>:)` (lazy group, so
the match runs from the first occurrence of the heading to the first
following occurrence of the next heading; if the first heading occurrence has
no following next-heading occurrence then no later one has either, so the
whole pattern fails) and `## Answer:(.*)` (greedy to the end of the string).
A failed match yields the empty string. -/

def evidenceHeading : List Char := "## Evidence:".data

def cotHeading : List Char := "## Chain of Thought:".data

def answerHeading : List Char := "## Answer:".data

/-- Text strictly between the first occurrence of `h1` and the first
occurrence of `h2` after it, stripped; empty when either search fails. -/
def sectionBetween (h1 h2 text : List Char) : List Char :=
  match splitOnFirst h1 text with
  | none => []
  | some (_, rest) =>
    match splitOnFirst h2 rest with
    | none => []
    | some (a, _) => pyStrip a

/-- Text after the first occurrence of `h`, stripped; empty when absent. -/
def sectionTail (h text : List Char) : List Char :=
  match splitOnFirst h text with
  | none => []
  | some (_, rest) => pyStrip rest

structure Sections where
  evidence : List Char
  chainOfThought : List Char
  answer : List Char
deriving DecidableEq

/-- Model of `extract_sections`: the dictionary with keys Evidence, Chain of
Thought and Answer is modelled as a three-field structure. -/
def extract_sections (text : List Char) : Sections :=
  ⟨sectionBetween evidenceHeading cotHeading text,
   sectionBetween cotHeading answerHeading text,
   sectionTail answerHeading text⟩

/-- C6: on text of the form `## Evidence:` A `## Chain of Thought:` B
`## Answer:` C — where the chain-of-thought heading has no occurrence before
the displayed one and likewise for the answer heading — extraction returns
Evidence = A, Chain of Thought = B and Answer = C, each stripped of
surrounding whitespace; and on any text missing a heading, that heading's
section is the empty string (extraction is a total function, it never
fails). -/
theorem extract_sections_spec (A B C : List Char)
    (hA : ¬ cotHeading <:+: (evidenceHeading ++ A ++ cotHeading).dropLast)
    (hB : ¬ answerHeading <:+:
      (evidenceHeading ++ A ++ cotHeading ++ B ++ answerHeading).dropLast) :
    extract_sections
        (evidenceHeading ++ A ++ cotHeading ++ B ++ answerHeading ++ C) =
      ⟨pyStrip A, pyStrip B, pyStrip C⟩ ∧
    (∀ t, (¬ evidenceHeading <:+: t → (extract_sections t).evidence = []) ∧
          (¬ cotHeading <:+: t → (extract_sections t).chainOfThought = []) ∧
          (¬ answerHeading <:+: t → (extract_sections t).answer = [])) := by
  have hev : evidenceHeading ≠ [] := by decide
  have hcot : cotHeading ≠ [] := by decide
  have hans : answerHeading ≠ [] := by decide
  constructor
  · have h1 : splitOnFirst evidenceHeading
        (evidenceHeading ++ A ++ cotHeading ++ B ++ answerHeading ++ C) =
        some ([], A ++ (cotHeading ++ (B ++ (answerHeading ++ C)))) := by
      have := splitOnFirst_append evidenceHeading hev []
        (A ++ (cotHeading ++ (B ++ (answerHeading ++ C)))) (by decide)
      simpa [List.append_assoc] using this
    have h2 : splitOnFirst cotHeading
        (A ++ (cotHeading ++ (B ++ (answerHeading ++ C)))) =
        some (A, B ++ (answerHeading ++ C)) := by
      refine splitOnFirst_append cotHeading hcot A (B ++ (answerHeading ++ C)) ?_
      refine not_infix_dropLast_of_append cotHeading evidenceHeading (A ++ cotHeading)
        (by intro hnil; exact hcot (List.append_eq_nil.mp hnil).2) ?_
      simpa [List.append_assoc] using hA
    have h2' : splitOnFirst cotHeading
        (evidenceHeading ++ A ++ cotHeading ++ B ++ answerHeading ++ C) =
        some (evidenceHeading ++ A, B ++ (answerHeading ++ C)) := by
      have := splitOnFirst_append cotHeading hcot (evidenceHeading ++ A)
        (B ++ (answerHeading ++ C)) (by simpa [List.append_assoc] using hA)
      simpa [List.append_assoc] using this
    have h3 : splitOnFirst answerHeading (B ++ (answerHeading ++ C)) = some (B, C) := by
      refine splitOnFirst_append answerHeading hans B C ?_
      refine not_infix_dropLast_of_append answerHeading
        (evidenceHeading ++ A ++ cotHeading) (B ++ answerHeading)
        (by intro hnil; exact hans (List.append_eq_nil.mp hnil).2) ?_
      simpa [List.append_assoc] using hB
    have h3' : splitOnFirst answerHeading
        (evidenceHeading ++ A ++ cotHeading ++ B ++ answerHeading ++ C) =
        some (evidenceHeading ++ A ++ cotHeading ++ B, C) := by
      have := splitOnFirst_append answerHeading hans
        (evidenceHeading ++ A ++ cotHeading ++ B) C
        (by simpa [List.append_assoc] using hB)
      simpa [List.append_assoc] using this
    simp only [extract_sections, sectionBetween, sectionTail, h1, h2, h2', h3, h3']
  · intro t
    refine ⟨fun h => ?_, fun h => ?_, fun h => ?_⟩
    · simp only [extract_sections, sectionBetween,
        splitOnFirst_eq_none evidenceHeading hev t h]
    · simp only [extract_sections, sectionBetween,
        splitOnFirst_eq_none cotHeading hcot t h]
    · simp only [extract_sections, sectionTail,
        splitOnFirst_eq_none answerHeading hans t h]

/-- Witness for `extract_sections_spec` at concrete section bodies. -/
theorem extract_sections_spec_witness :
    extract_sections (evidenceHeading ++ "\nA\n".data ++ cotHeading ++ "\nB\n".data ++
        answerHeading ++ "\nC".data) =
      ⟨pyStrip "\nA\n".data, pyStrip "\nB\n".data, pyStrip "\nC".data⟩ :=
  (extract_sections_spec "\nA\n".data "\nB\n".data "\nC".data
    (by decide) (by decide)).1

/-! ### C10 — Parsing of the combined (fusion) output

Model of `parse_combined_output` (src lines 1054-1077): the reply is split on
newlines; a line starting with the marker `"## "` selects the current section
(the rest of the line with `':'` stripped from both ends); other lines are
appended (with a newline) to the current section's buffer when that section
is one of Analysis, Conclusion, Final Answer, and are discarded otherwise or
when no heading has been seen yet; finally each buffer is stripped. -/

def headingMarker : List Char := "## ".data

def analysisKey : List Char := "Analysis".data

def conclusionKey : List Char := "Conclusion".data

def finalAnswerKey : List Char := "Final Answer".data

structure CombinedSections where
  analysis : List Char
  conclusion : List Char
  finalAnswer : List Char
deriving DecidableEq

/-- Python `sections[current_section] += line + '\n'` for the three known
keys; any other key leaves the buffers unchanged. -/
def appendLine (s : CombinedSections) (key line : List Char) : CombinedSections :=
  if key = analysisKey then { s with analysis := s.analysis ++ line ++ ['\n'] }
  else if key = conclusionKey then { s with conclusion := s.conclusion ++ line ++ ['\n'] }
  else if key = finalAnswerKey then { s with finalAnswer := s.finalAnswer ++ line ++ ['\n'] }
  else s

/-- One iteration of the line loop of `parse_combined_output`. -/
def stepLine (st : Option (List Char) × CombinedSections) (line : List Char) :
    Option (List Char) × CombinedSections :=
  if headingMarker.isPrefixOf line then
    (some (stripWhile (fun c => c = ':') (line.drop 3)), st.2)
  else
    match st.1 with
    | none => st
    | some key => (st.1, appendLine st.2 key line)

/-- The whole line loop from a given state. -/
def runLines (st : Option (List Char) × CombinedSections)
    (lines : List (List Char)) : Option (List Char) × CombinedSections :=
  lines.foldl stepLine st

/-- Python `output.split('\n')`. -/
def splitLines : List Char → List (List Char)
  | [] => [[]]
  | c :: cs =>
    if c = '\n' then [] :: splitLines cs
    else
      match splitLines cs with
      | [] => [[c]]
      | l :: ls => (c :: l) :: ls

/-- Model of `parse_combined_output`: the returned dictionary always has
exactly the keys Analysis, Conclusion and Final Answer (the three fields of
`CombinedSections`). -/
def parse_combined_output (out : List Char) : CombinedSections :=
  let fin := runLines (none, ⟨[], [], []⟩) (splitLines out)
  ⟨pyStrip fin.2.analysis, pyStrip fin.2.conclusion, pyStrip fin.2.finalAnswer⟩

/-- Concatenating line lists concatenates the runs. -/
theorem runLines_append (st : Option (List Char) × CombinedSections)
    (l1 l2 : List (List Char)) :
    runLines st (l1 ++ l2) = runLines (runLines st l1) l2 :=
  List.foldl_append _ _ _ _

/-- Two nonempty lists in the prefix order share their first element. -/
theorem get_zero_of_append_right {α : Type} (l1 l2 : List α)
    (h1 : 0 < l1.length) (h2 : 0 < l2.length) (hp : l1 <+: l2) :
    l1.get ⟨0, h1⟩ = l2.get ⟨0, h2⟩ := by
  rcases hp with ⟨u, rfl⟩
  simp only [List.get_eq_getElem]
  exact (List.getElem_append_left h1).symm

/-- Stripping twice is the same as stripping once. -/
theorem pyStrip_idem (s : List Char) : pyStrip (pyStrip s) = pyStrip s := by
  show stripWhile isPySpace (stripWhile isPySpace s) = stripWhile isPySpace s
  have hdef : ∀ u : List Char,
      stripWhile isPySpace u = List.rdropWhile isPySpace (List.dropWhile isPySpace u) := by
    intro u
    simp [stripWhile, List.rdropWhile]
  rw [hdef, hdef]
  have ht : List.dropWhile isPySpace (List.dropWhile isPySpace s) =
      List.dropWhile isPySpace s := List.dropWhile_idempotent _ _
  have hpre : List.rdropWhile isPySpace (List.dropWhile isPySpace s) <+:
      List.dropWhile isPySpace s := List.rdropWhile_prefix _ _
  have hdw : List.dropWhile isPySpace
      (List.rdropWhile isPySpace (List.dropWhile isPySpace s)) =
      List.rdropWhile isPySpace (List.dropWhile isPySpace s) := by
    rw [List.dropWhile_eq_self_iff]
    intro hl
    obtain ⟨u, hu⟩ := hpre
    have ht0 : 0 < (List.dropWhile isPySpace s).length := by
      rw [← hu, List.length_append]
      omega
    rw [get_zero_of_append_right _ _ hl ht0 ⟨u, hu⟩]
    exact List.dropWhile_get_zero_not isPySpace s ht0
  rw [hdw, List.rdropWhile_idempotent]

/-- C10: the parse of the fusion reply is total and yields exactly the three
sections Analysis, Conclusion and Final Answer, each equal to its own
whitespace-strip; non-heading lines before the first heading are discarded;
a block of non-heading lines under an unrecognized `## ` heading is
discarded; and a heading line itself contributes to no section buffer. -/
theorem parse_combined_output_spec (out : List Char) (s0 : CombinedSections)
    (st : Option (List Char) × CombinedSections)
    (pre mid rest : List (List Char)) (hd : List Char)
    (hpre : ∀ l ∈ pre, headingMarker.isPrefixOf l = false)
    (hhd : headingMarker.isPrefixOf hd = true)
    (hunk : stripWhile (fun c => c = ':') (hd.drop 3) ∉
      [analysisKey, conclusionKey, finalAnswerKey])
    (hmid : ∀ l ∈ mid, headingMarker.isPrefixOf l = false) :
    ((parse_combined_output out).analysis =
        pyStrip (parse_combined_output out).analysis ∧
      (parse_combined_output out).conclusion =
        pyStrip (parse_combined_output out).conclusion ∧
      (parse_combined_output out).finalAnswer =
        pyStrip (parse_combined_output out).finalAnswer) ∧
    runLines (none, s0) (pre ++ rest) = runLines (none, s0) rest ∧
    runLines st (hd :: (mid ++ rest)) = runLines st (hd :: rest) ∧
    (stepLine st hd).2 = st.2 := by
  refine ⟨⟨?_, ?_, ?_⟩, ?_, ?_, ?_⟩
  · exact (pyStrip_idem _).symm
  · exact (pyStrip_idem _).symm
  · exact (pyStrip_idem _).symm
  · have hkeep : ∀ (ls : List (List Char)) (s : CombinedSections),
        (∀ l ∈ ls, headingMarker.isPrefixOf l = false) →
        runLines (none, s) ls = (none, s) := by
      intro ls
      induction ls with
      | nil => intro s _; rfl
      | cons l ls ih =>
        intro s h
        have hl := h l (List.mem_cons_self _ _)
        have hstep : stepLine (none, s) l = (none, s) := by
          simp [stepLine, hl]
        show runLines (stepLine (none, s) l) ls = (none, s)
        rw [hstep]
        exact ih s (fun x hx => h x (List.mem_cons_of_mem _ hx))
    rw [runLines_append, hkeep pre s0 hpre]
  · have hstep : stepLine st hd =
        (some (stripWhile (fun c => c = ':') (hd.drop 3)), st.2) := by
      simp [stepLine, hhd]
    have hunk' : ∀ s : CombinedSections,
        appendLine s (stripWhile (fun c => c = ':') (hd.drop 3)) = fun _ => s := by
      intro s
      funext line
      simp only [List.mem_cons, List.mem_singleton, not_or] at hunk
      simp [appendLine, hunk.1, hunk.2.1, hunk.2.2]
    have hkeep : ∀ (ls : List (List Char)) (s : CombinedSections),
        (∀ l ∈ ls, headingMarker.isPrefixOf l = false) →
        runLines (some (stripWhile (fun c => c = ':') (hd.drop 3)), s) ls =
          (some (stripWhile (fun c => c = ':') (hd.drop 3)), s) := by
      intro ls
      induction ls with
      | nil => intro s _; rfl
      | cons l ls ih =>
        intro s h
        have hl := h l (List.mem_cons_self _ _)
        have hstep' : stepLine
            (some (stripWhile (fun c => c = ':') (hd.drop 3)), s) l =
            (some (stripWhile (fun c => c = ':') (hd.drop 3)), s) := by
          simp only [stepLine, hl, Bool.false_eq_true, if_false]
          show (_, appendLine s (stripWhile (fun c => c = ':') (hd.drop 3)) l) = _
          rw [hunk' s]
        show runLines (stepLine _ l) ls = _
        rw [hstep']
        exact ih s (fun x hx => h x (List.mem_cons_of_mem _ hx))
    show runLines (stepLine st hd) (mid ++ rest) = runLines (stepLine st hd) rest
    rw [hstep, runLines_append, hkeep mid st.2 hmid]
  · simp [stepLine, hhd]

/-- Witness for `parse_combined_output_spec` at concrete inputs: junk before
the first heading and a block under the unknown heading `## Notes:` are both
discarded. -/
theorem parse_combined_output_spec_witness :
    (((parse_combined_output "x".data).analysis =
        pyStrip (parse_combined_output "x".data).analysis ∧
      (parse_combined_output "x".data).conclusion =
        pyStrip (parse_combined_output "x".data).conclusion ∧
      (parse_combined_output "x".data).finalAnswer =
        pyStrip (parse_combined_output "x".data).finalAnswer) ∧
    runLines (none, ⟨[], [], []⟩) (["junk".data] ++ ["## Analysis:".data, "a".data]) =
      runLines (none, ⟨[], [], []⟩) ["## Analysis:".data, "a".data] ∧
    runLines (none, ⟨[], [], []⟩)
        ("## Notes:".data :: (["n1".data] ++ ["## Analysis:".data, "a".data])) =
      runLines (none, ⟨[], [], []⟩) ("## Notes:".data :: ["## Analysis:".data, "a".data]) ∧
    (stepLine ((none : Option (List Char)), ⟨[], [], []⟩) "## Notes:".data).2 =
      (⟨[], [], []⟩ : CombinedSections)) :=
  parse_combined_output_spec "x".data ⟨[], [], []⟩ (none, ⟨[], [], []⟩)
    ["junk".data] ["n1".data] ["## Analysis:".data, "a".data] "## Notes:".data
    (by decide) (by decide) (by decide) (by decide)

/-! ### Infrastructure: stable descending sort by a rational key

Python's `sorted(..., reverse=True)` and pandas `nlargest` are stable
descending sorts; this insertion sort places each element after all earlier
elements with a greater-or-equal key, which preserves the relative order of
equal keys. -/

def insertDescBy {α : Type} (key : α → ℚ) (x : α) : List α → List α
  | [] => [x]
  | y :: ys => if key y < key x then x :: y :: ys else y :: insertDescBy key x ys

def sortDescBy {α : Type} (key : α → ℚ) (l : List α) : List α :=
  l.foldl (fun acc x => insertDescBy key x acc) []

theorem mem_insertDescBy {α : Type} (key : α → ℚ) (x : α) (l : List α) (z : α) :
    z ∈ insertDescBy key x l ↔ z = x ∨ z ∈ l := by
  induction l with
  | nil => simp [insertDescBy]
  | cons y ys ih =>
    by_cases h : key y < key x
    · simp [insertDescBy, h]
    · simp only [insertDescBy, h, if_false, List.mem_cons, ih]
      tauto

theorem pairwise_insertDescBy {α : Type} (key : α → ℚ) (x : α) (l : List α)
    (h : List.Pairwise (fun a b => key b ≤ key a) l) :
    List.Pairwise (fun a b => key b ≤ key a) (insertDescBy key x l) := by
  induction l with
  | nil => simp [insertDescBy]
  | cons y ys ih =>
    rw [List.pairwise_cons] at h
    by_cases hc : key y < key x
    · show List.Pairwise _ (if key y < key x then _ else _)
      rw [if_pos hc, List.pairwise_cons]
      refine ⟨?_, List.pairwise_cons.mpr h⟩
      intro z hz
      rcases List.mem_cons.mp hz with rfl | hz'
      · exact le_of_lt hc
      · exact le_trans (h.1 z hz') (le_of_lt hc)
    · show List.Pairwise _ (if key y < key x then _ else _)
      rw [if_neg hc, List.pairwise_cons]
      refine ⟨?_, ih h.2⟩
      intro z hz
      rcases (mem_insertDescBy key x ys z).mp hz with rfl | hz'
      · exact le_of_not_lt hc
      · exact h.1 z hz'

theorem pairwise_sortDescBy {α : Type} (key : α → ℚ) (l : List α) :
    List.Pairwise (fun a b => key b ≤ key a) (sortDescBy key l) := by
  have main : ∀ (l acc : List α), List.Pairwise (fun a b => key b ≤ key a) acc →
      List.Pairwise (fun a b => key b ≤ key a)
        (l.foldl (fun acc x => insertDescBy key x acc) acc) := by
    intro l
    induction l with
    | nil => intro acc h; exact h
    | cons x xs ih =>
      intro acc h
      exact ih (insertDescBy key x acc) (pairwise_insertDescBy key x acc h)
  exact main l [] List.Pairwise.nil

theorem length_insertDescBy {α : Type} (key : α → ℚ) (x : α) (l : List α) :
    (insertDescBy key x l).length = l.length + 1 := by
  induction l with
  | nil => rfl
  | cons y ys ih =>
    by_cases h : key y < key x
    · simp [insertDescBy, h]
    · simp [insertDescBy, h, ih]

theorem length_sortDescBy {α : Type} (key : α → ℚ) (l : List α) :
    (sortDescBy key l).length = l.length := by
  have main : ∀ (l acc : List α),
      (l.foldl (fun acc x => insertDescBy key x acc) acc).length =
        l.length + acc.length := by
    intro l
    induction l with
    | nil => intro acc; simp
    | cons x xs ih =>
      intro acc
      rw [List.foldl_cons, ih (insertDescBy key x acc), length_insertDescBy]
      simp only [List.length_cons]
      omega
  simpa using main l []

/-! ### C4 — Textual index rank ordering

Model of the per-query row construction of `build_text_index`.  Sparse
branch (src lines 570-585): `sorted(range(len(scores)), key=scores[i],
reverse=True)[:top_k*2]`, enumerated with `rank = position + 1` and the raw
BM25 score.  Dense branch (src lines 613-632): the rows follow the vector
store's returned order (nearest first, a collaborator contract), with
`rank = position + 1` and `score = 1 - distance`. -/

structure TextRow where
  q_id : String
  chunkIdx : Nat
  rank : Nat
  score : ℚ
deriving DecidableEq

/-- Sparse (BM25) rows for one query: `scores` lists the BM25 score of every
chunk in chunk-index order. -/
def bm25_query_rows (top_k : Nat) (q_id : String) (scores : List ℚ) : List TextRow :=
  let top := (sortDescBy (fun p => p.2) scores.enum).take (top_k * 2)
  top.enum.map (fun rp => ⟨q_id, rp.2.1, rp.1 + 1, rp.2.2⟩)

/-- Dense rows for one query: `results` is the vector store's returned list
of (chunk index, cosine distance) pairs, in its returned order. -/
def dense_query_rows (q_id : String) (results : List (Nat × ℚ)) : List TextRow :=
  results.enum.map (fun rp => ⟨q_id, rp.2.1, rp.1 + 1, 1 - rp.2.2⟩)

/-- Enumeration preserves pairwise relations on the underlying elements. -/
theorem pairwise_enum {α : Type} (R : α → α → Prop) (l : List α)
    (h : List.Pairwise R l) : List.Pairwise (fun a b => R a.2 b.2) l.enum := by
  refine List.pairwise_map.mp ?_
  rw [List.enum_map_snd]
  exact h

/-- C4: sparse rows for a query have non-increasing raw scores along
increasing rank, at most `2 * top_k` rows are kept, and the rank at position
`i` is `i + 1` (so ranks start at 1); dense rows — given the vector-store
contract that returned distances are non-decreasing and at most `2 * top_k`
results are returned — have non-increasing `1 - distance` scores along
increasing rank, at most `2 * top_k` rows, and again rank `i + 1` at
position `i`. -/
theorem text_index_rank_ordering (top_k : Nat) (q_id : String) (scores : List ℚ)
    (results : List (Nat × ℚ))
    (hsorted : List.Pairwise (fun a b => a.2 ≤ b.2) results)
    (hlen : results.length ≤ top_k * 2) :
    (List.Pairwise (fun a b => b.score ≤ a.score) (bm25_query_rows top_k q_id scores) ∧
      (bm25_query_rows top_k q_id scores).length ≤ top_k * 2 ∧
      (∀ i (h : i < (bm25_query_rows top_k q_id scores).length),
        ((bm25_query_rows top_k q_id scores).get ⟨i, h⟩).rank = i + 1)) ∧
    (List.Pairwise (fun a b => b.score ≤ a.score) (dense_query_rows q_id results) ∧
      (dense_query_rows q_id results).length ≤ top_k * 2 ∧
      (∀ i (h : i < (dense_query_rows q_id results).length),
        ((dense_query_rows q_id results).get ⟨i, h⟩).rank = i + 1)) := by
  refine ⟨⟨?_, ?_, ?_⟩, ⟨?_, ?_, ?_⟩⟩
  · refine List.pairwise_map.mpr ?_
    have hs : List.Pairwise (fun a b : Nat × ℚ => b.2 ≤ a.2)
        ((sortDescBy (fun p => p.2) scores.enum).take (top_k * 2)) :=
      List.Pairwise.sublist (List.take_sublist _ _) (pairwise_sortDescBy _ _)
    exact pairwise_enum _ _ hs
  · simp only [bm25_query_rows, List.length_map, List.enum_length, List.length_take]
    exact le_trans (Nat.min_le_left _ _) (le_refl _)
  · intro i h
    simp only [bm25_query_rows, List.get_eq_getElem, List.getElem_map,
      List.getElem_enum]
  · refine List.pairwise_map.mpr ?_
    have hs : List.Pairwise (fun a b : Nat × ℚ => 1 - b.2 ≤ 1 - a.2) results :=
      hsorted.imp (fun {a b} hab => by linarith)
    exact pairwise_enum _ _ hs
  · simpa [dense_query_rows, List.enum_length] using hlen
  · intro i h
    simp only [dense_query_rows, List.get_eq_getElem, List.getElem_map,
      List.getElem_enum]

/-- Witness for `text_index_rank_ordering` at concrete inputs. -/
theorem text_index_rank_ordering_witness :
    List.Pairwise (fun a b => b.score ≤ a.score)
      (bm25_query_rows 1 "q" [3, 7, 5]) ∧
    List.Pairwise (fun a b => b.score ≤ a.score)
      (dense_query_rows "q" [(2, 1/10), (0, 1/2)]) :=
  ⟨(text_index_rank_ordering 1 "q" [3, 7, 5] [(2, 1/10), (0, 1/2)]
      (by norm_num) (by norm_num)).1.1,
   (text_index_rank_ordering 1 "q" [3, 7, 5] [(2, 1/10), (0, 1/2)]
      (by norm_num) (by norm_num)).2.1⟩

/-! ### C9 — Visual retrieval read path

Model of the row-selection and page-loading part of
`retrieve_visual_contexts` (src lines 670-715).  The persisted table is a
row list; `nlargest(top_k, score)` is pandas' stable descending selection;
each selected row is loaded by splitting its page id on the last underscore,
parsing the page index with Python `int` (which accepts negatives), locating
the PDF and rasterizing it; any failure (missing file, unparsable index,
conversion error, index out of range) skips the row. -/

structure VisRow where
  q_id : String
  document_id : List Char
  score : ℚ
deriving DecidableEq

structure PageCtx where
  image : Nat
  document_id : List Char
  page_number : Int
deriving DecidableEq

/-- pandas `df.nlargest(k, score)`: the first `k` rows of the stable
descending sort by score. -/
def nlargest_by_score (k : Nat) (rows : List VisRow) : List VisRow :=
  (sortDescBy VisRow.score rows).take k

/-- Loading one selected row (the body of the src 685-712 loop iteration):
`fsExists` abstracts `os.path.exists`, `convert` abstracts
`convert_from_path` (pages as abstract image tokens, `none` = exception),
`parseInt` abstracts Python `int` on the page-index string.  Returns `none`
exactly when the row is skipped. -/
def load_page (fsExists : List Char → Bool) (convert : List Char → Option (List Nat))
    (parseInt : List Char → Option Int) (pdf_dir : List Char) (row : VisRow) :
    Option PageCtx :=
  match beforeLastSep '_' row.document_id with
  | none => none
  | some base =>
    match parseInt ((afterLastSep '_' row.document_id).getD []) with
    | none => none
    | some p =>
      let path := pathJoin pdf_dir (base ++ ".pdf".data)
      if fsExists path then
        match convert path with
        | none => none
        | some imgs =>
          if (imgs.length : Int) ≤ p then none
          else if 0 ≤ p then some ⟨imgs.getD p.toNat 0, row.document_id, p⟩
          else if 0 ≤ p + imgs.length then
            some ⟨imgs.getD (p + imgs.length).toNat 0, row.document_id, p⟩
          else none
      else none

/-- The loading loop: skipped rows contribute nothing, loaded rows are
appended in selection order. -/
def visLoop (load : VisRow → Option PageCtx) : List VisRow → List PageCtx
  | [] => []
  | r :: rs =>
    match load r with
    | none => visLoop load rs
    | some pg => pg :: visLoop load rs

/-- Model of the read path of `retrieve_visual_contexts` for one query
(after the persisted table has been loaded). -/
def retrieve_visual_contexts (fsExists : List Char → Bool)
    (convert : List Char → Option (List Nat)) (parseInt : List Char → Option Int)
    (pdf_dir : List Char) (top_k : Nat) (table : List VisRow) (query_id : String) :
    List PageCtx :=
  let query_rows := table.filter (fun r => r.q_id = query_id)
  if query_rows.isEmpty then []
  else visLoop (load_page fsExists convert parseInt pdf_dir)
    (nlargest_by_score top_k query_rows)

/-- The loading loop is exactly a `filterMap`. -/
theorem visLoop_eq_filterMap (load : VisRow → Option PageCtx) (rows : List VisRow) :
    visLoop load rows = rows.filterMap load := by
  induction rows with
  | nil => rfl
  | cons r rs ih =>
    show (match load r with
      | none => visLoop load rs
      | some pg => pg :: visLoop load rs) = _
    rw [List.filterMap_cons]
    cases load r with
    | none => simpa using ih
    | some pg => simpa using ih

/-- C9: the visual read returns exactly the loadable rows among the top
`top_k` rows by score — so at most `top_k` contexts, possibly fewer and
possibly none, with no error; a selected row whose PDF file is missing is
skipped, and a selected row whose parsed page index is at or beyond the
document's page count is skipped. -/
theorem retrieve_visual_contexts_spec (fsExists : List Char → Bool)
    (convert : List Char → Option (List Nat)) (parseInt : List Char → Option Int)
    (pdf_dir : List Char) (top_k : Nat) (table : List VisRow) (query_id : String) :
    retrieve_visual_contexts fsExists convert parseInt pdf_dir top_k table query_id =
      (nlargest_by_score top_k (table.filter (fun r => r.q_id = query_id))).filterMap
        (load_page fsExists convert parseInt pdf_dir) ∧
    (retrieve_visual_contexts fsExists convert parseInt pdf_dir top_k table
        query_id).length ≤ top_k ∧
    (∀ row base, beforeLastSep '_' row.document_id = some base →
      fsExists (pathJoin pdf_dir (base ++ ".pdf".data)) = false →
      load_page fsExists convert parseInt pdf_dir row = none) ∧
    (∀ row base p imgs, beforeLastSep '_' row.document_id = some base →
      parseInt ((afterLastSep '_' row.document_id).getD []) = some p →
      convert (pathJoin pdf_dir (base ++ ".pdf".data)) = some imgs →
      (imgs.length : Int) ≤ p →
      load_page fsExists convert parseInt pdf_dir row = none) := by
  have heq : retrieve_visual_contexts fsExists convert parseInt pdf_dir top_k table
      query_id =
      (nlargest_by_score top_k (table.filter (fun r => r.q_id = query_id))).filterMap
        (load_page fsExists convert parseInt pdf_dir) := by
    show (if (table.filter (fun r => r.q_id = query_id)).isEmpty then []
      else visLoop _ (nlargest_by_score top_k _)) = _
    by_cases hemp : (table.filter (fun r => r.q_id = query_id)).isEmpty
    · rw [if_pos hemp]
      rw [List.isEmpty_iff] at hemp
      rw [hemp]
      simp [nlargest_by_score, sortDescBy]
    · rw [if_neg hemp, visLoop_eq_filterMap]
  refine ⟨heq, ?_, ?_, ?_⟩
  · rw [heq]
    refine le_trans (List.length_filterMap_le _ _) ?_
    show (List.take top_k _).length ≤ top_k
    rw [List.length_take]
    exact Nat.min_le_left _ _
  · intro row base hbase hmiss
    cases hp : parseInt ((afterLastSep '_' row.document_id).getD []) with
    | none => simp [load_page, hbase, hp]
    | some p => simp [load_page, hbase, hp, hmiss]
  · intro row base p imgs hbase hp hconv hoob
    rcases hfs : fsExists (pathJoin pdf_dir (base ++ ".pdf".data)) with _ | _
    · simp [load_page, hbase, hp, hfs]
    · simp [load_page, hbase, hp, hfs, hconv, hoob]

/-- Witness for `retrieve_visual_contexts_spec` at a concrete table: of the
two top rows of query q, one loads and one is skipped for an out-of-range
page index, so a single context (fewer than `top_k = 2`) is returned. -/
theorem retrieve_visual_contexts_spec_witness :
    retrieve_visual_contexts (fun _ => true)
        (fun _ => some [10]) (fun s => if s = "0".data then some 0 else some 5)
        "docs".data 2
        [⟨"q", "d_0".data, 9⟩, ⟨"q", "d_5".data, 4⟩, ⟨"r", "d_0".data, 1⟩] "q" =
      (nlargest_by_score 2
          ([⟨"q", "d_0".data, 9⟩, ⟨"q", "d_5".data, 4⟩,
            ⟨"r", "d_0".data, 1⟩].filter (fun r => r.q_id = "q"))).filterMap
        (load_page (fun _ => true) (fun _ => some [10])
          (fun s => if s = "0".data then some 0 else some 5) "docs".data) :=
  (retrieve_visual_contexts_spec (fun _ => true) (fun _ => some [10])
    (fun s => if s = "0".data then some 0 else some 5) "docs".data 2
    [⟨"q", "d_0".data, 9⟩, ⟨"q", "d_5".data, 4⟩, ⟨"r", "d_0".data, 1⟩] "q").1

/-! ### C3 — Chunk-to-page alignment

Model of `identify_document_and_page` (src lines 302-322) and of the
assignment made for each chunk in `build_text_index` (src lines 550-557).
The similarity ratio (`SequenceMatcher(None, chunk, page_text).ratio()`) is
an abstract function into the rationals; the document cache is an ordered
association list (Python dicts iterate in insertion order). -/

/-- The (document id, page index, page text) triples in the order the nested
loops of `identify_document_and_page` visit them. -/
def flattenCache : List (String × List String) → List (String × Nat × String)
  | [] => []
  | dp :: rest => dp.2.enum.map (fun it => (dp.1, it.1, it.2)) ++ flattenCache rest

/-- The running-maximum loop: the best match is replaced only on a strictly
greater ratio. -/
def bestLoop (score : String × Nat × String → ℚ) :
    List (String × Nat × String) → ℚ × Option (String × Nat) → ℚ × Option (String × Nat)
  | [], acc => acc
  | e :: es, acc =>
    if acc.1 < score e then bestLoop score es (score e, some (e.1, e.2.1))
    else bestLoop score es acc

/-- Model of `identify_document_and_page`: the Python `(None, None)` result
is `none`. -/
def identify_document_and_page (ratio : String → String → ℚ)
    (cache : List (String × List String)) (chunk : String) : Option (String × Nat) :=
  (bestLoop (fun e => ratio chunk e.2.2) (flattenCache cache) ((0 : ℚ), none)).2

/-- The (chunk_pdf_name, pdf_page_number) pair recorded for a chunk of
source document `doc_id` in `build_text_index` (src lines 552-557), with
Python truthiness: a `None` or empty-string document id falls back to the
source document id, a `None` page to 0. -/
def chunk_assignment (ratio : String → String → ℚ)
    (cache : List (String × List String)) (doc_id chunk : String) : String × Nat :=
  match identify_document_and_page ratio cache chunk with
  | none => (doc_id, 0)
  | some (a, p) => (if a = "" then doc_id else a, p)

/-- Full characterization of the running-maximum loop: either no element
strictly exceeds the initial maximum and the accumulator survives, or the
loop returns the first element attaining the overall maximum, with strictly
smaller scores before it and no greater score after it. -/
theorem bestLoop_spec (score : String × Nat × String → ℚ)
    (l : List (String × Nat × String)) :
    ∀ (m : ℚ) (b : Option (String × Nat)),
    ((∀ e ∈ l, score e ≤ m) ∧ bestLoop score l (m, b) = (m, b)) ∨
    (∃ l1 e l2, l = l1 ++ e :: l2 ∧
      bestLoop score l (m, b) = (score e, some (e.1, e.2.1)) ∧
      m < score e ∧ (∀ x ∈ l1, score x < score e) ∧ (∀ x ∈ l2, score x ≤ score e)) := by
  induction l with
  | nil =>
    intro m b
    left
    exact ⟨fun e he => absurd he (List.not_mem_nil e), rfl⟩
  | cons x xs ih =>
    intro m b
    by_cases hx : m < score x
    · have hstep : bestLoop score (x :: xs) (m, b) =
          bestLoop score xs (score x, some (x.1, x.2.1)) := by
        show (if (m, b).1 < score x then _ else _) = _
        rw [if_pos hx]
      rcases ih (score x) (some (x.1, x.2.1)) with ⟨hall, heq⟩ |
        ⟨l1, e, l2, hsplit, heq, hlt, h1, h2⟩
      · right
        refine ⟨[], x, xs, rfl, ?_, hx, by intro y hy; exact absurd hy (List.not_mem_nil y),
          hall⟩
        rw [hstep, heq]
      · right
        refine ⟨x :: l1, e, l2, by rw [hsplit]; rfl, ?_, lt_trans hx hlt, ?_, h2⟩
        · rw [hstep, heq]
        · intro y hy
          rcases List.mem_cons.mp hy with rfl | hy'
          · exact hlt
          · exact h1 y hy'
    · have hstep : bestLoop score (x :: xs) (m, b) = bestLoop score xs (m, b) := by
        show (if (m, b).1 < score x then _ else _) = _
        rw [if_neg hx]
      rcases ih m b with ⟨hall, heq⟩ | ⟨l1, e, l2, hsplit, heq, hlt, h1, h2⟩
      · left
        refine ⟨?_, by rw [hstep, heq]⟩
        intro e he
        rcases List.mem_cons.mp he with rfl | he'
        · exact le_of_not_lt hx
        · exact hall e he'
      · right
        refine ⟨x :: l1, e, l2, by rw [hsplit]; rfl, by rw [hstep, heq], hlt, ?_, h2⟩
        intro y hy
        rcases List.mem_cons.mp hy with rfl | hy'
        · exact lt_of_le_of_lt (le_of_not_lt hx) hlt
        · exact h1 y hy'

/-- C3: provided cached document ids are non-empty strings, the pair
assigned to a chunk is
the first (document, page) attaining the maximum ratio over all pages of all
cached documents — strictly greater ratios alone replace the running best,
so the first page attaining the maximum wins — and when every ratio is zero
the assignment falls back to the chunk's source document id and page 0. -/
theorem chunk_page_alignment (ratio : String → String → ℚ)
    (cache : List (String × List String)) (doc_id chunk : String)
    (hids : ∀ e ∈ flattenCache cache, e.1 ≠ "") :
    ((∀ e ∈ flattenCache cache, ratio chunk e.2.2 = 0) →
      chunk_assignment ratio cache doc_id chunk = (doc_id, 0)) ∧
    ((∃ e ∈ flattenCache cache, 0 < ratio chunk e.2.2) →
      ∃ l1 e l2, flattenCache cache = l1 ++ e :: l2 ∧
        chunk_assignment ratio cache doc_id chunk = (e.1, e.2.1) ∧
        (∀ x ∈ flattenCache cache, ratio chunk x.2.2 ≤ ratio chunk e.2.2) ∧
        (∀ x ∈ l1, ratio chunk x.2.2 < ratio chunk e.2.2)) := by
  constructor
  · intro hz
    rcases bestLoop_spec (fun e => ratio chunk e.2.2) (flattenCache cache) 0 none with
      ⟨_, heq⟩ | ⟨l1, e, l2, hsplit, _, hlt, _, _⟩
    · show (match identify_document_and_page ratio cache chunk with
        | none => (doc_id, 0)
        | some (a, p) => (if a = "" then doc_id else a, p)) = (doc_id, 0)
      rw [identify_document_and_page, heq]
    · exfalso
      have hmem : e ∈ flattenCache cache := by
        rw [hsplit]
        exact List.mem_append_right l1 (List.mem_cons_self e l2)
      rw [hz e hmem] at hlt
      exact lt_irrefl 0 hlt
  · intro hex
    rcases bestLoop_spec (fun e => ratio chunk e.2.2) (flattenCache cache) 0 none with
      ⟨hall, _⟩ | ⟨l1, e, l2, hsplit, heq, _, h1, h2⟩
    · exfalso
      obtain ⟨e0, he0, hpos0⟩ := hex
      exact absurd (hall e0 he0) (not_le.mpr hpos0)
    · have hmem : e ∈ flattenCache cache := by
        rw [hsplit]
        exact List.mem_append_right l1 (List.mem_cons_self e l2)
      refine ⟨l1, e, l2, hsplit, ?_, ?_, h1⟩
      · show (match identify_document_and_page ratio cache chunk with
          | none => (doc_id, 0)
          | some (a, p) => (if a = "" then doc_id else a, p)) = (e.1, e.2.1)
        rw [identify_document_and_page, heq]
        simp [hids e hmem]
      · intro x hx
        rw [hsplit] at hx
        rcases List.mem_append.mp hx with hx1 | hx2
        · exact le_of_lt (h1 x hx1)
        · rcases List.mem_cons.mp hx2 with rfl | hx3
          · exact le_refl _
          · exact h2 x hx3

/-- Witness for `chunk_page_alignment` at a concrete cache: the chunk is
assigned the unique page of positive ratio. -/
theorem chunk_page_alignment_witness :
    ∃ l1 e l2,
      flattenCache [("d1", ["py", "px"])] = l1 ++ e :: l2 ∧
      chunk_assignment (fun _ s => if s = "px" then (1 : ℚ) else 0)
          [("d1", ["py", "px"])] "d0" "c" = (e.1, e.2.1) ∧
      (∀ x ∈ flattenCache [("d1", ["py", "px"])],
        (fun (_ : String) s => if s = "px" then (1 : ℚ) else 0) "c" x.2.2 ≤
          (fun (_ : String) s => if s = "px" then (1 : ℚ) else 0) "c" e.2.2) ∧
      (∀ x ∈ l1,
        (fun (_ : String) s => if s = "px" then (1 : ℚ) else 0) "c" x.2.2 <
          (fun (_ : String) s => if s = "px" then (1 : ℚ) else 0) "c" e.2.2) :=
  (chunk_page_alignment (fun _ s => if s = "px" then (1 : ℚ) else 0)
    [("d1", ["py", "px"])] "d0" "c" (by decide)).2
    ⟨("d1", 1, "px"), by decide, by norm_num⟩

/-! ### C5 — Visual ranking candidate restriction

Model of the per-query candidate selection of `build_visual_index`
(src lines 450-507).  Page ids are formatted as `f"{doc_id}_{page_idx}"`
with a decimal page index; the per-query filter keeps a page exactly when
`page_id.rsplit('_', 1)[0]` is in the relevant-document list, which is the
parsed `documents` field with everything from `".pdf"` on stripped, or the
full list of processed document stems when that field is unparsable
(an `eval` exception) or empty. -/

/-- Decimal digit character. -/
def digitChar (n : Nat) : Char := Char.ofNat (48 + n)

/-- Decimal rendering of a natural number (Python `f"{n}"`). -/
def natChars (n : Nat) : List Char :=
  if _h : n < 10 then [digitChar n]
  else natChars (n / 10) ++ [digitChar (n % 10)]
decreasing_by exact Nat.div_lt_self (by omega) (by norm_num)

theorem digitChar_ne_underscore (n : Nat) (h : n < 10) : digitChar n ≠ '_' := by
  interval_cases n <;> decide

theorem underscore_not_mem_natChars (n : Nat) : '_' ∉ natChars n := by
  induction n using Nat.strong_induction_on with
  | _ n ih =>
    rw [natChars]
    by_cases h : n < 10
    · simp only [dif_pos h, List.mem_singleton]
      exact fun he => digitChar_ne_underscore n h he.symm
    · simp only [dif_neg h, List.mem_append, List.mem_singleton]
      rintro (hm | hm)
      · exact ih (n / 10) (Nat.div_lt_self (by omega) (by norm_num)) hm
      · exact digitChar_ne_underscore (n % 10) (Nat.mod_lt n (by norm_num)) hm.symm

theorem beforeLastSep_eq_none_of_not_mem (sep : Char) (t : List Char) (h : sep ∉ t) :
    beforeLastSep sep t = none := by
  induction t with
  | nil => rfl
  | cons c cs ih =>
    have hc : c ≠ sep := fun hcs => h (hcs ▸ List.mem_cons_self c cs)
    have hcs : sep ∉ cs := fun hm => h (List.mem_cons_of_mem c hm)
    show (match beforeLastSep sep cs with
      | some p => some (c :: p)
      | none => if c = sep then some [] else none) = none
    rw [ih hcs, if_neg hc]

theorem beforeLastSep_append (sep : Char) (d t : List Char) (h : sep ∉ t) :
    beforeLastSep sep (d ++ sep :: t) = some d := by
  induction d with
  | nil =>
    show (match beforeLastSep sep t with
      | some p => some (sep :: p)
      | none => if sep = sep then some [] else none) = some []
    rw [beforeLastSep_eq_none_of_not_mem sep t h, if_pos rfl]
  | cons a d' ih =>
    show (match beforeLastSep sep (d' ++ sep :: t) with
      | some p => some (a :: p)
      | none => if a = sep then some [] else none) = some (a :: d')
    rw [ih]

/-- The page id's document part: `rsplit('_', 1)` recovers the document id
because the decimal page index contains no underscore. -/
theorem rsplitBase_pageId (d : List Char) (i : Nat) :
    rsplitBase '_' (d ++ '_' :: natChars i) = d := by
  show (beforeLastSep '_' (d ++ '_' :: natChars i)).getD _ = d
  rw [beforeLastSep_append '_' d (natChars i) (underscore_not_mem_natChars i)]
  rfl

/-- All processed page ids, in processing order: one id per page of each
document stem. -/
def pageIds (numPages : String → Nat) : List String → List (List Char)
  | [] => []
  | d :: ds =>
    (List.range (numPages d)).map (fun i => d.data ++ '_' :: natChars i) ++
      pageIds numPages ds

/-- The relevant-document list for one query (src lines 451-467):
`parsedDocs = none` models an `eval` exception on the `documents` field. -/
def relevantDocsFor (parsedDocs : Option (List String)) (pdfStems : List String) :
    List String :=
  let rd := match parsedDocs with
    | some docs => docs.map (fun d => String.mk (beforeFirstSub ".pdf".data d.data))
    | none => pdfStems
  if rd.isEmpty then pdfStems else rd

/-- The candidate filter of src lines 470-474: keep a page when the part of
its id before the last underscore names a relevant document. -/
def candidate_pages (parsed : Option (List String)) (stems : List String)
    (pages : List (List Char)) : List (List Char) :=
  pages.filter (fun pid => decide (String.mk (rsplitBase '_' pid) ∈ relevantDocsFor parsed stems))

/-- Per-query ranking rows (page id, score).  An empty candidate set raises
in `torch.cat` and the query is skipped (src lines 478, 509-511), producing
no rows.  `np.argsort` leaves tie order unspecified; the stable descending
sort here is one admissible order, and the membership facts proved about it
hold for every order. -/
def rank_pages_for_query (score : List Char → ℚ) (parsed : Option (List String))
    (stems : List String) (pages : List (List Char)) : List (List Char × ℚ) :=
  let c := candidate_pages parsed stems pages
  if c.isEmpty then []
  else sortDescBy Prod.snd (c.map (fun p => (p, score p)))

theorem mem_sortDescBy {α : Type} (key : α → ℚ) (l : List α) (z : α) :
    z ∈ sortDescBy key l ↔ z ∈ l := by
  have main : ∀ (l acc : List α) (z : α),
      z ∈ l.foldl (fun acc x => insertDescBy key x acc) acc ↔ z ∈ l ∨ z ∈ acc := by
    intro l
    induction l with
    | nil => intro acc z; simp
    | cons x xs ih =>
      intro acc z
      rw [List.foldl_cons, ih (insertDescBy key x acc) z, mem_insertDescBy]
      simp only [List.mem_cons]
      tauto
  rw [sortDescBy, main l [] z]
  simp

theorem mem_pageIds (numPages : String → Nat) (stems : List String) (z : List Char) :
    z ∈ pageIds numPages stems ↔
      ∃ d ∈ stems, ∃ i < numPages d, z = d.data ++ '_' :: natChars i := by
  induction stems with
  | nil => simp [pageIds]
  | cons d ds ih =>
    simp only [pageIds, List.mem_append, List.mem_map, List.mem_range, ih,
      List.mem_cons]
    constructor
    · rintro (⟨i, hi, rfl⟩ | ⟨d', hd', i, hi, rfl⟩)
      · exact ⟨d, Or.inl rfl, i, hi, rfl⟩
      · exact ⟨d', Or.inr hd', i, hi, rfl⟩
    · rintro ⟨d', hd' | hd', i, hi, rfl⟩
      · subst hd'
        exact Or.inl ⟨i, hi, rfl⟩
      · exact Or.inr ⟨d', hd', i, hi, rfl⟩

/-- C5: for a query whose parsed relevant-document list is non-empty, every
ranked candidate page names a document of that list (after `.pdf`-stripping)
and is a page of a processed document — no page of an irrelevant document is
ranked; when the `documents` field is unparsable or parses to an empty list,
the candidate set is the full processed page set. -/
theorem visual_candidate_restriction (score : List Char → ℚ)
    (numPages : String → Nat) (stems : List String) (docs : List String)
    (hne : docs ≠ []) :
    (∀ rp ∈ rank_pages_for_query score (some docs) stems (pageIds numPages stems),
      String.mk (rsplitBase '_' rp.1) ∈
        docs.map (fun d => String.mk (beforeFirstSub ".pdf".data d.data)) ∧
      ∃ d ∈ stems, ∃ i < numPages d, rp.1 = d.data ++ '_' :: natChars i) ∧
    candidate_pages none stems (pageIds numPages stems) = pageIds numPages stems ∧
    candidate_pages (some []) stems (pageIds numPages stems) =
      pageIds numPages stems := by
  have hrel : relevantDocsFor (some docs) stems =
      docs.map (fun d => String.mk (beforeFirstSub ".pdf".data d.data)) := by
    rw [relevantDocsFor]
    have : (docs.map (fun d => String.mk (beforeFirstSub ".pdf".data d.data))).isEmpty =
        false := by
      rcases docs with _ | ⟨d, ds⟩
      · exact absurd rfl hne
      · rfl
    simp only [this, Bool.false_eq_true, if_false]
  have hall : ∀ parsed, relevantDocsFor parsed stems = stems →
      candidate_pages parsed stems (pageIds numPages stems) =
        pageIds numPages stems := by
    intro parsed hps
    rw [candidate_pages]
    refine List.filter_eq_self.mpr ?_
    intro pid hpid
    rw [hps]
    obtain ⟨d, hd, i, _, rfl⟩ := (mem_pageIds numPages stems pid).mp hpid
    rw [rsplitBase_pageId]
    simpa using hd
  refine ⟨?_, ?_, ?_⟩
  · intro rp hrp
    rw [rank_pages_for_query] at hrp
    by_cases hemp : (candidate_pages (some docs) stems (pageIds numPages stems)).isEmpty
    · rw [if_pos hemp] at hrp
      exact absurd hrp (List.not_mem_nil rp)
    · rw [if_neg hemp, mem_sortDescBy] at hrp
      obtain ⟨p, hp, rfl⟩ := List.mem_map.mp hrp
      rw [candidate_pages] at hp
      obtain ⟨hpmem, hppred⟩ := List.mem_filter.mp hp
      constructor
      · have := of_decide_eq_true hppred
        rwa [hrel] at this
      · exact (mem_pageIds numPages stems p).mp hpmem
  · refine hall none ?_
    rw [relevantDocsFor]
    rcases stems with _ | ⟨s, ss⟩ <;> rfl
  · refine hall (some []) ?_
    rfl

/-- Witness for `visual_candidate_restriction` at a one-document corpus. -/
theorem visual_candidate_restriction_witness :
    candidate_pages none ["d"] (pageIds (fun _ => 1) ["d"]) =
      pageIds (fun _ => 1) ["d"] :=
  (visual_candidate_restriction (fun _ => 0) (fun _ => 1) ["d"] ["d.pdf"]
    (by decide)).2.1

end VisDoM
